import Mathlib

/-!  Verification of the content-extraction and document-assembly pipeline of
the web-page to document converter in src/code1.py.

The Python code works on BeautifulSoup parse trees (html.parser builder).
We embed the parse tree as `Node` below and translate each pipeline function
(include_css, extract_main_content, style_html_content, convert_to_docx and
the orchestration loop of main) into a Lean function over that tree.  The
network is an oracle: page, stylesheet and image fetches are functions into
`Option`, with `none` standing for a requests.RequestException or non-2xx
status (requests.get + raise_for_status).

Modelling notes on BeautifulSoup semantics used by the code:
- soup.find / attribute access like soup.html returns the first match of a
  depth-first pre-order walk of the descendants, or None;
- a bs4 Tag is always truthy (Tag defines a boolean conversion returning
  True), so Python tests like `soup.find(..) or soup.find(..)` and
  `if not soup.html:` test only for None;
- class_ and rel are multi-valued attributes: the stored value is the
  whitespace-split list of the attribute text, and matching a string against
  them succeeds when the string is one of the values;
- str(soup) serialization followed by re-parsing is modelled as the identity
  on parse trees, so stage boundaries pass trees directly; an empty fetched
  or serialized text corresponds to the empty forest;
- NavigableString is a str subclass, hence `isinstance(child, str)` is true
  exactly for bare text nodes;
- the top-level filter `hasattr(element, "name")` of convert_to_docx admits
  only Tag children: a bare text node is never handed to process_element
  (with bs4 versions where NavigableString exposes a name attribute the
  subsequent access to .children would raise instead; under neither version
  is a top-level text node emitted as a paragraph);
- link is a void element under html.parser, so stylesheet links have no
  children;
- comments, doctypes and HTML entity escaping are not modelled. -/

namespace WebToPdf

set_option maxRecDepth 100000

/-- Parse tree of HTML markup as produced by BeautifulSoup: an element with
a tag name, attribute list and children, or a bare text node
(NavigableString). -/
inductive Node where
  | elem (name : String) (attrs : List (String × String)) (children : List Node)
  | text (s : String)

/-- A parsed document: the list of top-level nodes of the soup object. -/
abbrev Doc := List Node

/-- Attribute lookup, bs4 Tag.get: first binding of the key, if any. -/
def attrVal (attrs : List (String × String)) (k : String) : Option String :=
  (attrs.find? (fun a => a.1 == k)).map (fun a => a.2)

/-- String built from a character list (all string computations below are
routed through structural character-list helpers so that every definition
reduces inside the kernel). -/
def ofChars (cs : List Char) : String := ⟨cs⟩

/-- Splitting a character list on a separator, keeping empty segments, as
str.split of Python and String.splitOn of Lean do. -/
def splitChar (sep : Char) : List Char → List (List Char)
  | [] => [[]]
  | c :: rest =>
    if c == sep then [] :: splitChar sep rest
    else
      match splitChar sep rest with
      | seg :: segs => (c :: seg) :: segs
      | [] => [[c]]

/-- str.startswith. -/
def strStartsWith (s p : String) : Bool := p.data.isPrefixOf s.data

/-- Values of a multi-valued attribute (class, rel): bs4 stores the
whitespace-split list of the attribute text. -/
def multiVal (v : String) : List String :=
  ((splitChar (Char.ofNat 32) v.data).filter (fun c => !c.isEmpty)).map ofChars

/-- Does the node carry the given tag name. -/
def isTag (nm : String) : Node → Bool
  | .elem name _ _ => name == nm
  | .text _ => false

-- Tag.get_text: concatenation of all descendant text nodes in document
-- order.
mutual
def Node.getText : Node → String
  | .text s => s
  | .elem _ _ cs => getTexts cs
def getTexts : List Node → String
  | [] => ""
  | n :: rest => n.getText ++ getTexts rest
end

-- soup.find: first node of the depth-first pre-order walk satisfying the
-- predicate (bs4 searches the descendants of the soup object, which for the
-- whole document are exactly the forest nodes and their descendants).
mutual
def findNode (p : Node → Bool) : Node → Option Node
  | .text s => if p (.text s) then some (.text s) else none
  | .elem nm attrs cs =>
    if p (.elem nm attrs cs) then some (.elem nm attrs cs) else findFirst p cs
def findFirst (p : Node → Bool) : List Node → Option Node
  | [] => none
  | n :: rest =>
    match findNode p n with
    | some r => some r
    | none => findFirst p rest
end

/-- Warnings recorded with st.warning, one constructor per f-string template
in the source (the requests exception text is not modelled). -/
inductive Warning where
  | cssFail (href : String)
  | mainFallback
  | imgFail (url : String)
  | pageFail (url : String)
  | noContent
deriving DecidableEq, Repr

/-- Scheme and host of an absolute URL u = scheme://host/path... -/
def schemeHost (u : String) : String :=
  match splitChar (Char.ofNat 47) u.data with
  | scheme :: [] :: host :: _ => ofChars scheme ++ "//" ++ ofChars host
  | _ => ""

/-- Models urllib.parse.urljoin (= requests.compat.urljoin) for the shapes
this program produces: a reference with an http(s) scheme passes through
unchanged, a root-relative reference is joined to scheme://host, and a
relative reference is appended to the base, which in every call of this
program is of the root form scheme://host/ (the result of urljoin(url, /)
computed in main). -/
def urljoin (base ref : String) : String :=
  if strStartsWith ref "http://" || strStartsWith ref "https://" then ref
  else if strStartsWith ref "/" then schemeHost base ++ ref
  else base ++ ref

/-- A link element that find_all("link", rel="stylesheet") returns: tag name
link whose multi-valued rel attribute contains stylesheet. -/
def isStylesheetLink : Node → Bool
  | .elem nm attrs _ =>
    nm == "link" && (attrVal attrs "rel").elim false (fun v => (multiVal v).contains "stylesheet")
  | .text _ => false

/-- Resolution of a stylesheet href in include_css: the source joins against
the base only when the href does not start with "http". -/
def resolveHref (base href : String) : String :=
  if strStartsWith href "http" then href else urljoin base href

-- include_css: every stylesheet link with a nonempty href is fetched; on
-- success the link is replaced in place by a style element of type text/css
-- holding the fetched text verbatim, on failure the link stays and a warning
-- naming the resolved href is recorded, and the walk continues.  Modelled as
-- a structural map (find_all collects the links in the same pre-order).
mutual
def includeCssNode (fetch : String → Option String) (base : String) : Node → Node × List Warning
  | .text s => (.text s, [])
  | .elem nm attrs cs =>
    if isStylesheetLink (.elem nm attrs cs) then
      match attrVal attrs "href" with
      | some href =>
        if href == "" then
          let r := includeCssList fetch base cs
          (.elem nm attrs r.1, r.2)
        else
          let url := resolveHref base href
          match fetch url with
          | some cssText => (.elem "style" [("type", "text/css")] [.text cssText], [])
          | none =>
            let r := includeCssList fetch base cs
            (.elem nm attrs r.1, .cssFail url :: r.2)
      | none =>
        let r := includeCssList fetch base cs
        (.elem nm attrs r.1, r.2)
    else
      let r := includeCssList fetch base cs
      (.elem nm attrs r.1, r.2)
def includeCssList (fetch : String → Option String) (base : String) :
    List Node → List Node × List Warning
  | [] => ([], [])
  | n :: rest =>
    let h := includeCssNode fetch base n
    let r := includeCssList fetch base rest
    (h.1 :: r.1, h.2 ++ r.2)
end

def include_css (fetch : String → Option String) (base : String) (doc : Doc) :
    Doc × List Warning :=
  includeCssList fetch base doc

/-- Match for soup.find("div", class_=c): a div whose multi-valued class
attribute contains c. -/
def isDivClass (c : String) : Node → Bool
  | .elem nm attrs _ =>
    nm == "div" && (attrVal attrs "class").elim false (fun v => (multiVal v).contains c)
  | .text _ => false

/-- Match for soup.find("div", id=i). -/
def isDivId (i : String) : Node → Bool
  | .elem nm attrs _ => nm == "div" && attrVal attrs "id" == some i
  | .text _ => false

/-- Python `x or y` on two find results: a bs4 Tag is always truthy, so this
is plain None-coalescing. -/
def pyOr (x y : Option Node) : Option Node :=
  match x with
  | some n => some n
  | none => y

/-- The structural chrome removed inside a detected main region:
main_content.find_all(["aside", "nav", "header", "footer"]) + decompose. -/
def chromeNames : List String := ["aside", "nav", "header", "footer"]

mutual
def removeChromeNode : Node → Node
  | .text s => .text s
  | .elem nm attrs cs => .elem nm attrs (removeChromeList cs)
def removeChromeList : List Node → List Node
  | [] => []
  | n :: rest =>
    match n with
    | .text s => .text s :: removeChromeList rest
    | .elem nm _ _ =>
      if chromeNames.contains nm then removeChromeList rest
      else removeChromeNode n :: removeChromeList rest
end

/-- extract_main_content: first-match selection over the fixed candidate
chain, chrome removal inside the selected region, whole document plus a
fallback warning when nothing matches. -/
def extract_main_content (doc : Doc) : Doc × List Warning :=
  let mc0 := pyOr (findFirst (isTag "main") doc) (findFirst (isTag "article") doc)
  let mc :=
    match mc0 with
    | none =>
      pyOr (findFirst (isDivClass "main-content") doc)
      (pyOr (findFirst (isDivId "main-content") doc)
      (pyOr (findFirst (isDivClass "content") doc)
      (pyOr (findFirst (isDivId "content") doc)
            (findFirst (isDivClass "primary-content") doc))))
    | some m => some m
  match mc with
  | some m => ([removeChromeNode m], [])
  | none => (doc, [.mainFallback])

/-- A single quote character, kept out of string literals. -/
def sq : String := String.singleton (Char.ofNat 39)

/-- The CSS text of the style block injected by style_html_content: the
exact Python triple-quoted literal of the source (braces escaped, quotes
via sq). -/
def cssStyleText : String :=
  "\n    @import url(" ++ sq ++
  "https://fonts.googleapis.com/css2?family=Roboto:wght@400;700&display=swap" ++ sq ++
  ");\n\n    body \x7b\n        font-family: " ++ sq ++ "Roboto" ++ sq ++
  ", sans-serif;\n        line-height: 1.6;\n        margin: 0;\n        padding: 20px;\n    \x7d\n    h1, h2, h3, h4, h5, h6 \x7b\n        font-weight: 700;\n    \x7d\n    img \x7b\n        display: block;\n        margin-left: auto;\n        margin-right: auto;\n        width: 70%;\n        height: auto;\n    \x7d\n    p \x7b\n        text-align: justify;\n    \x7d\n    "

/-- The style element appended by style_html_content (new_tag("style") with
its string set to the CSS text). -/
def styleNode : Node := .elem "style" [] [.text cssStyleText]

-- Rewriting the DFS-first node accepted by f, leaving everything else
-- unchanged; none when no node is accepted.
mutual
def mapFirstNode (f : Node → Option Node) : Node → Option Node
  | .text s =>
    match f (.text s) with
    | some m => some m
    | none => none
  | .elem nm attrs cs =>
    match f (.elem nm attrs cs) with
    | some m => some m
    | none =>
      match mapFirstList f cs with
      | some cs2 => some (.elem nm attrs cs2)
      | none => none
def mapFirstList (f : Node → Option Node) : List Node → Option (List Node)
  | [] => none
  | n :: rest =>
    match mapFirstNode f n with
    | some n2 => some (n2 :: rest)
    | none =>
      match mapFirstList f rest with
      | some rest2 => some (n :: rest2)
      | none => none
end

/-- The rewrite editFirstTag applies at a single node: accept an element
with the wanted tag name and edit its child list. -/
def editTagFun (nm : String) (edit : List Node → List Node) : Node → Option Node
  | .elem name attrs cs => if name == nm then some (.elem name attrs (edit cs)) else none
  | .text _ => none

/-- Edit the child list of the DFS-first element with the given tag name
(the mutation done on soup.html / soup.head after attribute access); the
document is unchanged when no such element exists. -/
def editFirstTag (nm : String) (edit : List Node → List Node) (doc : Doc) : Doc :=
  (mapFirstList (editTagFun nm edit) doc).getD doc

/-- First statement of style_html_content: when soup.html is None, an empty
html element is inserted at position 0 of the document (the rest of the
content is not moved inside it). -/
def ensureHtml (doc : Doc) : Doc :=
  match findFirst (isTag "html") doc with
  | some _ => doc
  | none => Node.elem "html" [] [] :: doc

/-- Second statement of style_html_content: when soup.head is None, an
empty head element is inserted at position 0 of the first html element. -/
def ensureHead (doc : Doc) : Doc :=
  match findFirst (isTag "head") doc with
  | some _ => doc
  | none => editFirstTag "html" (fun cs => Node.elem "head" [] [] :: cs) doc

/-- style_html_content: ensure an html element, ensure a head element, then
append the style block to the first head element. -/
def style_html_content (doc : Doc) : Doc :=
  editFirstTag "head" (fun cs => cs ++ [styleNode]) (ensureHead (ensureHtml doc))

/-- Abstract document blocks appended to the python-docx Document object. -/
inductive Block where
  | heading (text : String) (level : Nat)
  | para (text : String)
  | image (data : List Nat) (widthInches : Nat)
deriving DecidableEq, Repr

/-- The block or warning process_element produces for the element itself,
before its children are visited: the if/elif chain of the source.  Image
bytes are fetched at urljoin(base_url, src); Inches(4) is recorded as the
fixed display width 4. -/
def ownOutput (fetchBytes : String → Option (List Nat)) (base : String) :
    Node → List Block × List Warning
  | .text _ => ([], [])
  | .elem nm attrs cs =>
    if nm == "h1" then ([.heading (Node.elem nm attrs cs).getText 1], [])
    else if nm == "h2" then ([.heading (Node.elem nm attrs cs).getText 2], [])
    else if nm == "h3" then ([.heading (Node.elem nm attrs cs).getText 3], [])
    else if nm == "p" then ([.para (Node.elem nm attrs cs).getText], [])
    else if nm == "img" then
      match attrVal attrs "src" with
      | some src =>
        if src == "" then ([], [])
        else
          let url := urljoin base src
          match fetchBytes url with
          | some bytes => ([.image bytes 4], [])
          | none => ([], [.imgFail url])
      | none => ([], [])
    else ([], [])

-- process_element: emit the own block of the element (if any), then walk
-- the children in order; a bare text child becomes a paragraph verbatim, an
-- element child recurses.
mutual
def processElement (fb : String → Option (List Nat)) (base : String) :
    Node → List Block × List Warning
  | .text _ => ([], [])
  | .elem nm attrs cs =>
    let own := ownOutput fb base (.elem nm attrs cs)
    let r := processChildren fb base cs
    (own.1 ++ r.1, own.2 ++ r.2)
def processChildren (fb : String → Option (List Nat)) (base : String) :
    List Node → List Block × List Warning
  | [] => ([], [])
  | n :: rest =>
    match n with
    | .text s =>
      let r := processChildren fb base rest
      (.para s :: r.1, r.2)
    | .elem _ _ _ =>
      let h := processElement fb base n
      let r := processChildren fb base rest
      (h.1 ++ r.1, h.2 ++ r.2)
end

/-- The node list the top loop of convert_to_docx iterates over: the
children of soup.body when a body element exists, else the top level of the
soup itself. -/
def docxRoots (doc : Doc) : List Node :=
  match findFirst (isTag "body") doc with
  | some (.elem _ _ cs) => cs
  | _ => doc

/-- Top loop of convert_to_docx: hasattr(element, "name") admits only
element children, so a top-level bare text node is skipped. -/
def processTop (fb : String → Option (List Nat)) (base : String) :
    List Node → List Block × List Warning
  | [] => ([], [])
  | n :: rest =>
    match n with
    | .text _ => processTop fb base rest
    | .elem _ _ _ =>
      let h := processElement fb base n
      let r := processTop fb base rest
      (h.1 ++ r.1, h.2 ++ r.2)

def convert_to_docx (fb : String → Option (List Nat)) (base : String) (doc : Doc) :
    List Block × List Warning :=
  processTop fb base (docxRoots doc)

/-- External fetch collaborators: page markup (returned as its parse tree),
stylesheet text and image bytes; none is a fetch failure. -/
structure FetchEnv where
  page : String → Option Doc
  css : String → Option String
  img : String → Option (List Nat)

/-- Loop state of main: the accumulated combined content, the base_url
variable (assigned on every successful page fetch) and the warning log. -/
structure PipeState where
  combined : Doc
  base : Option String
  warnings : List Warning

/-- One iteration of the URL loop of main: empty URL strings are skipped;
a failed or empty page fetch records a warning naming the URL and
contributes nothing; a fetched page runs include_css, then
extract_main_content on the result, then style_html_content, and appends
the styled content to the combined document. -/
def processUrl (env : FetchEnv) (st : PipeState) (url : String) : PipeState :=
  if url == "" then st
  else
    match env.page url with
    | some d =>
      if d.isEmpty then { st with warnings := st.warnings ++ [.pageFail url] }
      else
        let base := urljoin url "/"
        let rcss := include_css env.css base d
        let rmain := extract_main_content rcss.1
        let styled :=
          if rmain.1.isEmpty then style_html_content rcss.1
          else style_html_content rmain.1
        { combined := st.combined ++ styled
          base := some base
          warnings := st.warnings ++ rcss.2 ++ rmain.2 }
    | none => { st with warnings := st.warnings ++ [.pageFail url] }

def runPipeline (env : FetchEnv) (urls : List String) : PipeState :=
  urls.foldl (processUrl env) ⟨[], none, []⟩

/-- The DOCX path of main: accumulate the styled pages, then convert the
combined content against the base URL of the last successfully fetched page
(the final value of the base_url loop variable); the second component is
the full warning log. -/
def mainDocx (env : FetchEnv) (urls : List String) : Option (List Block) × List Warning :=
  let st := runPipeline env urls
  if st.combined.isEmpty then (none, st.warnings ++ [.noContent])
  else
    let r := convert_to_docx env.img (st.base.getD "") st.combined
    (some r.1, st.warnings ++ r.2)

/-- The page fetch for this URL succeeds with usable content (the guards
`if url:` and `if html_content:` of main both pass). -/
def pageOk (env : FetchEnv) (url : String) : Bool :=
  url != "" &&
    (match env.page url with
     | some d => !d.isEmpty
     | none => false)

/-- Tokens of the pre-order trace of a parse tree: an opening token carrying
name and attributes, a closing token, and a token per text node.  The trace
determines the tree, and a rewrite that only inserts nodes keeps the old
trace as a sublist of the new one, which is how content preservation is
stated below. -/
inductive Tok where
  | opener (name : String) (attrs : List (String × String))
  | closer
  | str (s : String)
deriving DecidableEq, Repr

mutual
def Node.trace : Node → List Tok
  | .text s => [.str s]
  | .elem nm attrs cs => .opener nm attrs :: (traceList cs ++ [.closer])
def traceList : List Node → List Tok
  | [] => []
  | n :: rest => n.trace ++ traceList rest
end

/-- Classification of the elements for which process_element produces output
of their own, with the data that output carries. -/
inductive SrcItem where
  | heading (text : String) (level : Nat)
  | par (text : String)
  | image (src : Option String)
deriving DecidableEq, Repr

/-- The own-output item of a single element, mirroring the if/elif chain of
process_element. -/
def srcItem? : Node → Option SrcItem
  | .text _ => none
  | .elem nm attrs cs =>
    if nm == "h1" then some (.heading (Node.elem nm attrs cs).getText 1)
    else if nm == "h2" then some (.heading (Node.elem nm attrs cs).getText 2)
    else if nm == "h3" then some (.heading (Node.elem nm attrs cs).getText 3)
    else if nm == "p" then some (.par (Node.elem nm attrs cs).getText)
    else if nm == "img" then some (.image (attrVal attrs "src"))
    else none

-- The heading/paragraph/image elements of a subtree in source document
-- order (depth-first, element before its children).
mutual
def srcSeqNode : Node → List SrcItem
  | .text _ => []
  | .elem nm attrs cs => (srcItem? (.elem nm attrs cs)).toList ++ srcSeqList cs
def srcSeqList : List Node → List SrcItem
  | [] => []
  | n :: rest => srcSeqNode n ++ srcSeqList rest
end

/-- The block an own-output item turns into: headings and paragraphs always
produce their block, an image produces a block exactly when it has a
nonempty src whose resolved URL fetches successfully. -/
def itemBlock (fb : String → Option (List Nat)) (base : String) : SrcItem → Option Block
  | .heading t l => some (.heading t l)
  | .par t => some (.para t)
  | .image none => none
  | .image (some src) =>
    if src == "" then none
    else
      match fb (urljoin base src) with
      | some bytes => some (.image bytes 4)
      | none => none

def isImageBlock : Block → Bool
  | .image _ _ => true
  | _ => false

/-- An image element for which a byte fetch is attempted: nonempty src. -/
def attemptedImg : SrcItem → Bool
  | .image (some src) => src != ""
  | _ => false

/-- Substring test on strings (structural, kernel-reducible). -/
def containsSub (s sub : String) : Bool :=
  s.data.tails.any (fun t => sub.data.isPrefixOf t)

/- Concrete inputs for counterexamples and witnesses. -/

/-- Page of the first URL in the end-to-end scenario of the spec: a main
element holding one h1 reading Title and one p reading Body text. -/
def page1 : Doc :=
  [Node.elem "main" [] [Node.elem "h1" [] [Node.text "Title"],
                        Node.elem "p" [] [Node.text "Body text"]]]

/-- Fetch environment of the end-to-end scenario: the first URL serves
page1, every other fetch fails. -/
def env1 : FetchEnv :=
  { page := fun u => if u == "http://one.example/a" then some page1 else none
    css := fun _ => none
    img := fun _ => none }

def urls1 : List String := ["http://one.example/a", "http://two.example/b"]

/-- A document whose only html element is nested below the root. -/
def nestedHtmlDoc : Doc :=
  [Node.elem "div" [] [Node.elem "html" [] [Node.elem "p" [] [Node.text "x"]]]]

/-- A main region containing chrome, next to another candidate container. -/
def mainWithChromeDoc : Doc :=
  [Node.elem "main" [] [Node.elem "nav" [] [Node.text "menu"],
                        Node.elem "p" [] [Node.text "x"]],
   Node.elem "article" [] [Node.text "y"],
   Node.elem "div" [("class", "content")] [Node.text "z"]]

/-- Two pages for the image-resolution scenario: the first page carries an
image with a relative src, the second page is the last one fetched. -/
def pageImg : Doc := [Node.elem "main" [] [Node.elem "img" [("src", "a.png")] []]]

def pagePlain : Doc := [Node.elem "main" [] [Node.elem "p" [] [Node.text "hi"]]]

/-- Environment of the image-resolution scenario: both pages fetch, and the
image bytes exist only under the host of the second page. -/
def env2 : FetchEnv :=
  { page := fun u =>
      if u == "http://one.example/p" then some pageImg
      else if u == "http://two.example/q" then some pagePlain
      else none
    css := fun _ => none
    img := fun u => if u == "http://two.example/a.png" then some [7] else none }

def urls2 : List String := ["http://one.example/p", "http://two.example/q"]

/-! Lemmas and claim theorems. -/

/-- Joint induction over the nested parse-tree type and its child lists. -/
theorem node_ind (P : Node → Prop) (Q : List Node → Prop)
    (helem : ∀ nm attrs cs, Q cs → P (.elem nm attrs cs))
    (htext : ∀ s, P (.text s))
    (hnil : Q [])
    (hcons : ∀ n rest, P n → Q rest → Q (n :: rest)) :
    (∀ n, P n) ∧ (∀ l, Q l) := by
  have hp : ∀ n, P n := fun n =>
    Node.rec (motive_1 := P) (motive_2 := Q) helem htext hnil hcons n
  refine ⟨hp, fun l => ?_⟩
  induction l with
  | nil => exact hnil
  | cons n rest ih => exact hcons n rest (hp n) ih

/-- One step of the child walk of process_element on a leading text child:
the text is emitted verbatim as a paragraph and the walk continues. -/
theorem processChildren_cons_text (fb : String → Option (List Nat)) (base : String)
    (s : String) (rest : List Node) :
    processChildren fb base (Node.text s :: rest)
      = (Block.para s :: (processChildren fb base rest).1, (processChildren fb base rest).2) := by
  simp [processChildren]

/-- One step of the child walk of process_element on a leading element
child: its output comes first, then the output of the remaining siblings. -/
theorem processChildren_cons_elem (fb : String → Option (List Nat)) (base : String)
    (nm : String) (attrs : List (String × String)) (cs rest : List Node) :
    processChildren fb base (Node.elem nm attrs cs :: rest)
      = ((processElement fb base (Node.elem nm attrs cs)).1 ++ (processChildren fb base rest).1,
         (processElement fb base (Node.elem nm attrs cs)).2 ++ (processChildren fb base rest).2) := by
  simp [processChildren]

/-- The child walk of process_element distributes over list append, so an
element never stops the processing of its later siblings. -/
theorem processChildren_append (fb : String → Option (List Nat)) (base : String)
    (xs ys : List Node) :
    processChildren fb base (xs ++ ys)
      = ((processChildren fb base xs).1 ++ (processChildren fb base ys).1,
         (processChildren fb base xs).2 ++ (processChildren fb base ys).2) := by
  induction xs with
  | nil => simp [processChildren]
  | cons n rest ih =>
    cases n with
    | text s => simp [processChildren_cons_text, ih]
    | elem nm attrs cs => simp [processChildren_cons_elem, ih]

theorem filterMap_option_toList {α β : Type} (f : α → Option β) (o : Option α) :
    o.toList.filterMap f = (o.bind f).toList := by
  cases o with
  | none => rfl
  | some a => cases f a <;> rfl

/-- The own output of one element matches its source-item classification:
the block list is the (at most singleton) realization of the item. -/
theorem ownOutput_blocks (fb : String → Option (List Nat)) (base : String) (n : Node) :
    (ownOutput fb base n).1 = ((srcItem? n).bind (itemBlock fb base)).toList := by
  cases n with
  | text s => rfl
  | elem nm attrs cs =>
    simp only [ownOutput, srcItem?]
    split_ifs with h1 h2 h3 h4 h5
    · rfl
    · rfl
    · rfl
    · rfl
    · cases hsrc : attrVal attrs "src" with
      | none => simp [itemBlock]
      | some src =>
        cases hs : src == "" with
        | true =>
          have hs2 : src = "" := by simpa using hs
          simp [itemBlock, hs2]
        | false =>
          have hs2 : ¬ src = "" := by simpa using hs
          cases hfb : fb (urljoin base src) with
          | none => simp [itemBlock, hs2, hfb]
          | some bytes => simp [itemBlock, hs2, hfb]
    · rfl

/-- The own output of one element balances images against warnings: number
of image blocks plus number of warnings equals the number of attempted
image fetches (0 or 1 at a single element). -/
theorem ownOutput_image_count (fb : String → Option (List Nat)) (base : String) (n : Node) :
    ((ownOutput fb base n).1.countP isImageBlock) + (ownOutput fb base n).2.length
      = (srcItem? n).toList.countP attemptedImg := by
  cases n with
  | text s => rfl
  | elem nm attrs cs =>
    simp only [ownOutput, srcItem?]
    split_ifs with h1 h2 h3 h4 h5
    · simp [isImageBlock, attemptedImg]
    · simp [isImageBlock, attemptedImg]
    · simp [isImageBlock, attemptedImg]
    · simp [isImageBlock, attemptedImg]
    · cases hsrc : attrVal attrs "src" with
      | none => simp [attemptedImg]
      | some src =>
        cases hs : src == "" with
        | true =>
          have hs2 : src = "" := by simpa using hs
          simp [attemptedImg, hs2]
        | false =>
          have hs2 : ¬ src = "" := by simpa using hs
          cases hfb : fb (urljoin base src) with
          | none => simp [attemptedImg, hs2, hfb, isImageBlock]
          | some bytes => simp [attemptedImg, hs2, hfb, isImageBlock]
    · rfl

/-- Joint order-preservation: the blocks realized from the source items of
a subtree, in document order, form a sublist of the emitted output. -/
theorem srcSeq_blocks_sublist (fb : String → Option (List Nat)) (base : String) :
    (∀ n, (((srcSeqNode n).filterMap (itemBlock fb base))).Sublist
        ((processElement fb base n).1)) ∧
    (∀ l, (((srcSeqList l).filterMap (itemBlock fb base))).Sublist
        ((processChildren fb base l).1)) := by
  refine node_ind _ _ ?_ ?_ ?_ ?_
  · intro nm attrs cs ih
    simp only [processElement, srcSeqNode, List.filterMap_append]
    refine List.Sublist.append ?_ ih
    rw [filterMap_option_toList, ← ownOutput_blocks fb base]
  · intro s
    simp [srcSeqNode, processElement]
  · simp [srcSeqList, processChildren]
  · intro n rest ihn ihr
    cases n with
    | text s =>
      have : srcSeqList (Node.text s :: rest) = srcSeqList rest := by
        simp [srcSeqList, srcSeqNode]
      rw [this, processChildren_cons_text]
      exact ihr.cons _
    | elem nm attrs cs =>
      have : srcSeqList (Node.elem nm attrs cs :: rest)
          = srcSeqNode (Node.elem nm attrs cs) ++ srcSeqList rest := by
        simp [srcSeqList]
      rw [this, processChildren_cons_elem, List.filterMap_append]
      exact List.Sublist.append ihn ihr

/-- Joint image/warning balance over the child walk. -/
theorem processChildren_image_count (fb : String → Option (List Nat)) (base : String) :
    (∀ n, ((processElement fb base n).1.countP isImageBlock)
        + (processElement fb base n).2.length
        = (srcSeqNode n).countP attemptedImg) ∧
    (∀ l, ((processChildren fb base l).1.countP isImageBlock)
        + (processChildren fb base l).2.length
        = (srcSeqList l).countP attemptedImg) := by
  refine node_ind _ _ ?_ ?_ ?_ ?_
  · intro nm attrs cs ih
    have hown := ownOutput_image_count fb base (Node.elem nm attrs cs)
    simp only [processElement, srcSeqNode, List.countP_append, List.length_append]
    omega
  · intro s
    simp [srcSeqNode, processElement]
  · simp [srcSeqList, processChildren]
  · intro n rest ihn ihr
    cases n with
    | text s =>
      have h := processChildren_cons_text fb base s rest
      simp [h, srcSeqList, srcSeqNode, List.countP_cons, isImageBlock, ihr]
    | elem nm attrs cs =>
      have h := processChildren_cons_elem fb base nm attrs cs rest
      simp only [h, srcSeqList, List.countP_append, List.length_append]
      omega

/-- C6: the Block Translator preserves document order.  For the
heading/paragraph/image elements of the translated content, listed in
source document order (depth-first, element before its children), the
blocks they produce appear in the output sequence in exactly that relative
order: the realized blocks of the document-order item list form a sublist
of the emitted block sequence, both for a full conversion and for any
subtree walk. -/
theorem C6_block_order (fb : String → Option (List Nat)) (base : String) (doc : Doc) :
    (((srcSeqList (docxRoots doc)).filterMap (itemBlock fb base)).Sublist
        ((convert_to_docx fb base doc).1))
    ∧ (∀ cs, (((srcSeqList cs).filterMap (itemBlock fb base)).Sublist
        ((processChildren fb base cs).1))) := by
  have hmain := srcSeq_blocks_sublist fb base
  refine ⟨?_, hmain.2⟩
  unfold convert_to_docx
  induction docxRoots doc with
  | nil => simp [srcSeqList, processTop]
  | cons n rest ih =>
    cases n with
    | text s =>
      have h1 : srcSeqList (Node.text s :: rest) = srcSeqList rest := by
        simp [srcSeqList, srcSeqNode]
      have h2 : processTop fb base (Node.text s :: rest) = processTop fb base rest := by
        simp [processTop]
      rw [h1, h2]; exact ih
    | elem nm attrs cs =>
      have h1 : srcSeqList (Node.elem nm attrs cs :: rest)
          = srcSeqNode (Node.elem nm attrs cs) ++ srcSeqList rest := by
        simp [srcSeqList]
      have h2 : processTop fb base (Node.elem nm attrs cs :: rest)
          = ((processElement fb base (Node.elem nm attrs cs)).1 ++ (processTop fb base rest).1,
             (processElement fb base (Node.elem nm attrs cs)).2 ++ (processTop fb base rest).2) := by
        simp [processTop]
      rw [h1, h2, List.filterMap_append]
      exact List.Sublist.append (hmain.1 _) ih

/-- C7: an image whose byte fetch fails contributes no block, contributes
exactly one warning naming the resolved image URL, and never aborts the
walk: (1) processing a failing img element yields exactly the output of its
children preceded by one warning and no block of its own; (2) the child
walk distributes over append, so later siblings are always still processed;
(3) the number of image blocks plus the number of warnings equals the
number of attempted image fetches, so the output holds exactly one image
block fewer per failure. -/
theorem C7_image_fetch_failure (fb : String → Option (List Nat)) (base : String) :
    (∀ attrs cs src, attrVal attrs "src" = some src → src ≠ "" →
       fb (urljoin base src) = none →
       processElement fb base (Node.elem "img" attrs cs)
         = ((processChildren fb base cs).1,
            Warning.imgFail (urljoin base src) :: (processChildren fb base cs).2))
    ∧ (∀ xs ys, processChildren fb base (xs ++ ys)
         = ((processChildren fb base xs).1 ++ (processChildren fb base ys).1,
            (processChildren fb base xs).2 ++ (processChildren fb base ys).2))
    ∧ (∀ cs, ((processChildren fb base cs).1.countP isImageBlock)
          + ((processChildren fb base cs).2).length
          = (srcSeqList cs).countP attemptedImg) := by
    refine ⟨?_, processChildren_append fb base, (processChildren_image_count fb base).2⟩
    intro attrs cs src hsrc hne hfb
    have hown : ownOutput fb base (Node.elem "img" attrs cs)
        = ([], [Warning.imgFail (urljoin base src)]) := by
      simp [ownOutput, hsrc, hne, hfb]
    simp [processElement, hown]

/-- Witness for C7 at a concrete failing image. -/
theorem C7_witness :
    processElement (fun _ => none) "http://h.example/" (Node.elem "img" [("src", "i.png")] [])
      = ([], [Warning.imgFail "http://h.example/i.png"]) := by
  have h := (C7_image_fetch_failure (fun _ => none) "http://h.example/").1
      [("src", "i.png")] [] "i.png" rfl (by decide) rfl
  exact h

/-- C8: a stylesheet link whose fetch fails is left in place unresolved
with exactly one warning naming the resolved reference, a successfully
fetched stylesheet link is replaced in place by an inline style element of
type text/css carrying the fetched text verbatim, and the walk over the
remaining links always continues (the link walk distributes over append). -/
theorem C8_css_fetch_failure (fetch : String → Option String) (base : String) :
    (∀ nm attrs cs href, isStylesheetLink (Node.elem nm attrs cs) = true →
       attrVal attrs "href" = some href → href ≠ "" →
       fetch (resolveHref base href) = none →
       includeCssNode fetch base (Node.elem nm attrs cs)
         = (Node.elem nm attrs (includeCssList fetch base cs).1,
            Warning.cssFail (resolveHref base href) :: (includeCssList fetch base cs).2))
    ∧ (∀ nm attrs href cssText, isStylesheetLink (Node.elem nm attrs []) = true →
       attrVal attrs "href" = some href → href ≠ "" →
       fetch (resolveHref base href) = some cssText →
       includeCssNode fetch base (Node.elem nm attrs [])
         = (Node.elem "style" [("type", "text/css")] [Node.text cssText], []))
    ∧ (∀ xs ys, includeCssList fetch base (xs ++ ys)
         = ((includeCssList fetch base xs).1 ++ (includeCssList fetch base ys).1,
            (includeCssList fetch base xs).2 ++ (includeCssList fetch base ys).2)) := by
  refine ⟨?_, ?_, ?_⟩
  · intro nm attrs cs href hlink hhref hne hfetch
    simp [includeCssNode, hlink, hhref, hne, hfetch]
  · intro nm attrs href cssText hlink hhref hne hfetch
    simp [includeCssNode, hlink, hhref, hne, hfetch]
  · intro xs ys
    induction xs with
    | nil => simp [includeCssList]
    | cons n rest ih => simp [includeCssList, ih]

/-- Witness for C8 at a concrete failing stylesheet link. -/
theorem C8_witness :
    includeCssNode (fun _ => none) "http://h.example/"
        (Node.elem "link" [("rel", "stylesheet"), ("href", "style.css")] [])
      = (Node.elem "link" [("rel", "stylesheet"), ("href", "style.css")] [],
         [Warning.cssFail "http://h.example/style.css"]) := by
  have h := (C8_css_fetch_failure (fun _ => none) "http://h.example/").1
      "link" [("rel", "stylesheet"), ("href", "style.css")] [] "style.css"
      (by decide) rfl (by decide) rfl
  exact h

/-- C4 as amended: a bare text node that is a direct child of an element
visited by process_element is emitted as a Paragraph block holding its text
verbatim (whitespace-only included), and the walk continues with the
following siblings; but a bare text node that is a direct child of the
traversal starting point (the body element, or the document root when no
body exists) is skipped by the hasattr filter of the top loop and is not
emitted. -/
theorem C4_text_children (fb : String → Option (List Nat)) (base : String)
    (s : String) (rest : List Node) :
    (processChildren fb base (Node.text s :: rest)
       = (Block.para s :: (processChildren fb base rest).1,
          (processChildren fb base rest).2))
    ∧ (processTop fb base (Node.text s :: rest) = processTop fb base rest) := by
  exact ⟨processChildren_cons_text fb base s rest, by simp [processTop]⟩

/-- Counterexample to C4 as stated: a text node that is a direct child of
the body, the starting element of the traversal, is not emitted as a
Paragraph block — the conversion of a body holding exactly the bare text
"hello" emits no block at all, where the claim promises the block sequence
[Paragraph "hello"]. -/
theorem C4_counterexample :
    convert_to_docx (fun _ => none) "" [Node.elem "body" [] [Node.text "hello"]] = ([], [])
    ∧ ([] : List Block) ≠ [Block.para "hello"] := by
  exact ⟨rfl, by decide⟩

/-- C10: an h4, h5 or h6 element produces no block of its own (in
particular no Heading block) — its output is exactly the output of the walk
over its children; hence when its content is a single bare text node, that
text surfaces as a Paragraph block, demoting heading levels 4 to 6 to
paragraph text. -/
theorem C10_h4_h5_h6 (fb : String → Option (List Nat)) (base : String)
    (attrs : List (String × String)) (cs : List Node) (t : String) :
    (processElement fb base (Node.elem "h4" attrs cs) = processChildren fb base cs)
    ∧ (processElement fb base (Node.elem "h5" attrs cs) = processChildren fb base cs)
    ∧ (processElement fb base (Node.elem "h6" attrs cs) = processChildren fb base cs)
    ∧ (processElement fb base (Node.elem "h4" attrs [Node.text t]) = ([Block.para t], []))
    ∧ (processElement fb base (Node.elem "h5" attrs [Node.text t]) = ([Block.para t], []))
    ∧ (processElement fb base (Node.elem "h6" attrs [Node.text t]) = ([Block.para t], [])) := by
  refine ⟨?_, ?_, ?_, ?_, ?_, ?_⟩ <;>
    simp [processElement, ownOutput, processChildren]

/-- C3: the Content Selector obeys the fixed first-match priority order
main, article, div with class main-content, div with id main-content, div
with class content, div with id content, div with class primary-content;
the selected region is returned with every nested nav/header/footer/aside
subtree removed and no warning, regardless of other candidates present;
when no candidate matches, the whole document is returned unchanged with
the full-page fallback warning. -/
theorem C3_content_selector (doc : Doc) :
    (∀ m, findFirst (isTag "main") doc = some m →
       extract_main_content doc = ([removeChromeNode m], []))
    ∧ (findFirst (isTag "main") doc = none →
       ∀ m, findFirst (isTag "article") doc = some m →
       extract_main_content doc = ([removeChromeNode m], []))
    ∧ (findFirst (isTag "main") doc = none →
       findFirst (isTag "article") doc = none →
       ∀ m, findFirst (isDivClass "main-content") doc = some m →
       extract_main_content doc = ([removeChromeNode m], []))
    ∧ (findFirst (isTag "main") doc = none →
       findFirst (isTag "article") doc = none →
       findFirst (isDivClass "main-content") doc = none →
       ∀ m, findFirst (isDivId "main-content") doc = some m →
       extract_main_content doc = ([removeChromeNode m], []))
    ∧ (findFirst (isTag "main") doc = none →
       findFirst (isTag "article") doc = none →
       findFirst (isDivClass "main-content") doc = none →
       findFirst (isDivId "main-content") doc = none →
       ∀ m, findFirst (isDivClass "content") doc = some m →
       extract_main_content doc = ([removeChromeNode m], []))
    ∧ (findFirst (isTag "main") doc = none →
       findFirst (isTag "article") doc = none →
       findFirst (isDivClass "main-content") doc = none →
       findFirst (isDivId "main-content") doc = none →
       findFirst (isDivClass "content") doc = none →
       ∀ m, findFirst (isDivId "content") doc = some m →
       extract_main_content doc = ([removeChromeNode m], []))
    ∧ (findFirst (isTag "main") doc = none →
       findFirst (isTag "article") doc = none →
       findFirst (isDivClass "main-content") doc = none →
       findFirst (isDivId "main-content") doc = none →
       findFirst (isDivClass "content") doc = none →
       findFirst (isDivId "content") doc = none →
       ∀ m, findFirst (isDivClass "primary-content") doc = some m →
       extract_main_content doc = ([removeChromeNode m], []))
    ∧ (findFirst (isTag "main") doc = none →
       findFirst (isTag "article") doc = none →
       findFirst (isDivClass "main-content") doc = none →
       findFirst (isDivId "main-content") doc = none →
       findFirst (isDivClass "content") doc = none →
       findFirst (isDivId "content") doc = none →
       findFirst (isDivClass "primary-content") doc = none →
       extract_main_content doc = (doc, [Warning.mainFallback])) := by
  refine ⟨?_, ?_, ?_, ?_, ?_, ?_, ?_, ?_⟩
  · intro m h1
    simp [extract_main_content, pyOr, h1]
  · intro h1 m h2
    simp [extract_main_content, pyOr, h1, h2]
  · intro h1 h2 m h3
    simp [extract_main_content, pyOr, h1, h2, h3]
  · intro h1 h2 h3 m h4
    simp [extract_main_content, pyOr, h1, h2, h3, h4]
  · intro h1 h2 h3 h4 m h5
    simp [extract_main_content, pyOr, h1, h2, h3, h4, h5]
  · intro h1 h2 h3 h4 h5 m h6
    simp [extract_main_content, pyOr, h1, h2, h3, h4, h5, h6]
  · intro h1 h2 h3 h4 h5 h6 m h7
    simp [extract_main_content, pyOr, h1, h2, h3, h4, h5, h6, h7]
  · intro h1 h2 h3 h4 h5 h6 h7
    simp [extract_main_content, pyOr, h1, h2, h3, h4, h5, h6, h7]

/-- Witness for C3: a main region containing a nav and a paragraph, next to
an article and a content div, is selected over the other candidates and
returned with the nav removed and no warning. -/
theorem C3_witness :
    extract_main_content mainWithChromeDoc
      = ([Node.elem "main" [] [Node.elem "p" [] [Node.text "x"]]], []) := by
  have h := (C3_content_selector mainWithChromeDoc).1
      (Node.elem "main" [] [Node.elem "nav" [] [Node.text "menu"],
                            Node.elem "p" [] [Node.text "x"]]) rfl
  exact h

/-- C1 as amended: in the two-URL DOCX scenario (first page a main element
with one h1 reading Title and one p reading Body text, second URL failing
to fetch) the warning log holds exactly one entry naming the second URL,
but the combined block sequence is not just one Heading and one Paragraph:
process_element re-emits the bare text child of each matched element as an
extra Paragraph, and the style block injected by style_html_content
surfaces as a Paragraph holding the CSS text, so the output is
[Paragraph css, Heading Title 1, Paragraph Title, Paragraph Body text,
Paragraph Body text]. -/
theorem C1_end_to_end :
    mainDocx env1 urls1
      = (some [Block.para cssStyleText, Block.heading "Title" 1, Block.para "Title",
               Block.para "Body text", Block.para "Body text"],
         [Warning.pageFail "http://two.example/b"]) := rfl

/-- Counterexample to C1 as stated: the combined block sequence of the
two-URL scenario does not contain exactly one Paragraph reading Body text —
it contains two (and further blocks besides the claimed two). -/
theorem C1_counterexample :
    (((mainDocx env1 urls1).1.getD []).countP (fun b => b == Block.para "Body text")) ≠ 1
    ∧ ((mainDocx env1 urls1).1.getD []).length ≠ 2 := by
  refine ⟨?_, ?_⟩ <;> decide

theorem traceList_append (xs ys : List Node) :
    traceList (xs ++ ys) = traceList xs ++ traceList ys := by
  induction xs with
  | nil => simp [traceList]
  | cons n rest ih => simp [traceList, ih]

/-- A rewrite of the first accepted node lifts per-node trace sublists to
the whole forest. -/
theorem mapFirst_trace (f : Node → Option Node)
    (hf : ∀ n m, f n = some m → (Node.trace n).Sublist (Node.trace m)) :
    (∀ n m, mapFirstNode f n = some m → (Node.trace n).Sublist (Node.trace m)) ∧
    (∀ l l2, mapFirstList f l = some l2 → (traceList l).Sublist (traceList l2)) := by
  refine node_ind
    (fun n => ∀ m, mapFirstNode f n = some m → (Node.trace n).Sublist (Node.trace m))
    (fun l => ∀ l2, mapFirstList f l = some l2 → (traceList l).Sublist (traceList l2))
    ?_ ?_ ?_ ?_
  · intro nm attrs cs ih m hm
    cases hfe : f (Node.elem nm attrs cs) with
    | some m2 =>
      simp only [mapFirstNode, hfe, Option.some.injEq] at hm
      exact hm ▸ hf _ _ hfe
    | none =>
      cases hml : mapFirstList f cs with
      | some cs2 =>
        simp only [mapFirstNode, hfe, hml, Option.some.injEq] at hm
        subst hm
        simp only [Node.trace]
        exact (List.Sublist.append (ih _ hml) (List.Sublist.refl _)).cons₂ _
      | none => simp [mapFirstNode, hfe, hml] at hm
  · intro s m hm
    cases hfe : f (Node.text s) with
    | some m2 =>
      simp only [mapFirstNode, hfe, Option.some.injEq] at hm
      exact hm ▸ hf _ _ hfe
    | none => simp [mapFirstNode, hfe] at hm
  · intro l2 h
    simp [mapFirstList] at h
  · intro n rest ihn ihr l2 hl
    cases hmn : mapFirstNode f n with
    | some n2 =>
      simp only [mapFirstList, hmn, Option.some.injEq] at hl
      subst hl
      simp only [traceList]
      exact List.Sublist.append (ihn _ hmn) (List.Sublist.refl _)
    | none =>
      cases hmr : mapFirstList f rest with
      | some rest2 =>
        simp only [mapFirstList, hmn, hmr, Option.some.injEq] at hl
        subst hl
        simp only [traceList]
        exact List.Sublist.append (List.Sublist.refl _) (ihr _ hmr)
      | none => simp [mapFirstList, hmn, hmr] at hl

/-- Editing the child list of the first matching tag keeps the old trace as
a sublist whenever the edit itself does. -/
theorem trace_editFirstTag (nm : String) (edit : List Node → List Node)
    (hedit : ∀ cs, (traceList cs).Sublist (traceList (edit cs))) (doc : Doc) :
    (traceList doc).Sublist (traceList (editFirstTag nm edit doc)) := by
  have hf : ∀ n m, editTagFun nm edit n = some m →
      (Node.trace n).Sublist (Node.trace m) := by
    intro n m h
    cases n with
    | text s => simp [editTagFun] at h
    | elem name attrs cs =>
      by_cases hn : (name == nm) = true
      · simp only [editTagFun, hn, if_true, Option.some.injEq] at h
        subst h
        simp only [Node.trace]
        exact (List.Sublist.append (hedit cs) (List.Sublist.refl _)).cons₂ _
      · simp [editTagFun, hn] at h
  unfold editFirstTag
  cases hme : mapFirstList (editTagFun nm edit) doc with
  | none => exact List.Sublist.refl _
  | some doc2 =>
    simp only [Option.getD_some]
    exact (mapFirst_trace _ hf).2 doc doc2 hme

/-- The whole style normalization only inserts nodes: the trace of the
input stays a sublist of the trace of the output. -/
theorem style_html_content_trace (doc : Doc) :
    (traceList doc).Sublist (traceList (style_html_content doc)) := by
  have h1 : (traceList doc).Sublist (traceList (ensureHtml doc)) := by
    unfold ensureHtml
    cases findFirst (isTag "html") doc with
    | some m => exact List.Sublist.refl _
    | none =>
      simp only [traceList]
      exact List.sublist_append_right _ _
  have h2 : (traceList (ensureHtml doc)).Sublist (traceList (ensureHead (ensureHtml doc))) := by
    unfold ensureHead
    cases findFirst (isTag "head") (ensureHtml doc) with
    | some m => exact List.Sublist.refl _
    | none =>
      refine trace_editFirstTag "html" _ ?_ _
      intro cs
      simp only [traceList]
      exact List.sublist_append_right _ _
  have h3 : (traceList (ensureHead (ensureHtml doc))).Sublist
      (traceList (style_html_content doc)) := by
    unfold style_html_content
    refine trace_editFirstTag "head" _ ?_ _
    intro cs
    rw [traceList_append]
    exact List.sublist_append_left _ _
  exact (h1.trans h2).trans h3

/-- C9: the Style Normalizer is idempotent with respect to document
structure — applying it to its own output never removes content present
after the first application: the full trace (elements with their names and
attributes, and text nodes) of the once-styled document is a sublist of
the trace of the twice-styled document. -/
theorem C9_style_idempotent (doc : Doc) :
    (traceList (style_html_content doc)).Sublist
      (traceList (style_html_content (style_html_content doc))) :=
  style_html_content_trace (style_html_content doc)

/-- A rewrite of the first accepted node shifts token counts of the forest
trace by the per-node shift. -/
theorem mapFirst_count (f : Node → Option Node) (t : Tok) (c : Nat)
    (hf : ∀ n m, f n = some m → (Node.trace m).count t = (Node.trace n).count t + c) :
    (∀ n m, mapFirstNode f n = some m →
        (Node.trace m).count t = (Node.trace n).count t + c) ∧
    (∀ l l2, mapFirstList f l = some l2 →
        (traceList l2).count t = (traceList l).count t + c) := by
  refine node_ind _ _ ?_ ?_ ?_ ?_
  · intro nm attrs cs ih m hm
    cases hfe : f (Node.elem nm attrs cs) with
    | some m2 =>
      simp only [mapFirstNode, hfe, Option.some.injEq] at hm
      exact hm ▸ hf _ _ hfe
    | none =>
      cases hml : mapFirstList f cs with
      | some cs2 =>
        simp only [mapFirstNode, hfe, hml, Option.some.injEq] at hm
        subst hm
        have := ih _ hml
        simp only [Node.trace, List.count_cons, List.count_append]
        omega
      | none => simp [mapFirstNode, hfe, hml] at hm
  · intro s m hm
    cases hfe : f (Node.text s) with
    | some m2 =>
      simp only [mapFirstNode, hfe, Option.some.injEq] at hm
      exact hm ▸ hf _ _ hfe
    | none => simp [mapFirstNode, hfe] at hm
  · intro l2 h
    simp [mapFirstList] at h
  · intro n rest ihn ihr l2 hl
    cases hmn : mapFirstNode f n with
    | some n2 =>
      simp only [mapFirstList, hmn, Option.some.injEq] at hl
      subst hl
      have := ihn _ hmn
      simp only [traceList, List.count_append]
      omega
    | none =>
      cases hmr : mapFirstList f rest with
      | some rest2 =>
        simp only [mapFirstList, hmn, hmr, Option.some.injEq] at hl
        subst hl
        have := ihr _ hmr
        simp only [traceList, List.count_append]
        omega
      | none => simp [mapFirstList, hmn, hmr] at hl

/-- Count shift of one editFirstTag application that succeeded. -/
theorem count_editFirstTag (nm : String) (edit : List Node → List Node) (t : Tok) (c : Nat)
    (hedit : ∀ cs, (traceList (edit cs)).count t = (traceList cs).count t + c)
    (doc doc2 : Doc) (hme : mapFirstList (editTagFun nm edit) doc = some doc2) :
    (traceList doc2).count t = (traceList doc).count t + c := by
  refine (mapFirst_count _ t c ?_).2 doc doc2 hme
  intro n m h
  cases n with
  | text s => simp [editTagFun] at h
  | elem name attrs cs =>
    by_cases hn : (name == nm) = true
    · simp only [editTagFun, hn, if_true, Option.some.injEq] at h
      subst h
      have := hedit cs
      simp only [Node.trace, List.count_cons, List.count_append]
      omega
    · simp [editTagFun, hn] at h

/-- The tag rewrite of editFirstTag fires exactly when find would find the
tag. -/
theorem mapFirst_editTag_isSome (nm : String) (edit : List Node → List Node) :
    (∀ n, (mapFirstNode (editTagFun nm edit) n).isSome = (findNode (isTag nm) n).isSome) ∧
    (∀ l, (mapFirstList (editTagFun nm edit) l).isSome = (findFirst (isTag nm) l).isSome) := by
  refine node_ind _ _ ?_ ?_ ?_ ?_
  · intro name attrs cs ih
    by_cases hn : (name == nm) = true
    · simp [mapFirstNode, editTagFun, findNode, isTag, hn]
    · cases hml : mapFirstList (editTagFun nm edit) cs <;>
        cases hff : findFirst (isTag nm) cs <;>
        simp_all [mapFirstNode, editTagFun, findNode, isTag, hn, hml, hff]
  · intro s
    simp [mapFirstNode, editTagFun, findNode, isTag]
  · simp [mapFirstList, findFirst]
  · intro n rest ihn ihr
    cases hmn : mapFirstNode (editTagFun nm edit) n <;>
      cases hfn : findNode (isTag nm) n <;>
      cases hml : mapFirstList (editTagFun nm edit) rest <;>
      cases hff : findFirst (isTag nm) rest <;>
      simp_all [mapFirstList, findFirst]

/-- A token put into the trace by the per-node rewrite is in the rewritten
forest trace. -/
theorem mapFirst_mem (f : Node → Option Node) (t : Tok)
    (hf : ∀ n m, f n = some m → t ∈ Node.trace m) :
    (∀ n m, mapFirstNode f n = some m → t ∈ Node.trace m) ∧
    (∀ l l2, mapFirstList f l = some l2 → t ∈ traceList l2) := by
  refine node_ind _ _ ?_ ?_ ?_ ?_
  · intro nm attrs cs ih m hm
    cases hfe : f (Node.elem nm attrs cs) with
    | some m2 =>
      simp only [mapFirstNode, hfe, Option.some.injEq] at hm
      exact hm ▸ hf _ _ hfe
    | none =>
      cases hml : mapFirstList f cs with
      | some cs2 =>
        simp only [mapFirstNode, hfe, hml, Option.some.injEq] at hm
        subst hm
        exact List.mem_cons_of_mem _ (List.mem_append_left _ (ih _ hml))
      | none => simp [mapFirstNode, hfe, hml] at hm
  · intro s m hm
    cases hfe : f (Node.text s) with
    | some m2 =>
      simp only [mapFirstNode, hfe, Option.some.injEq] at hm
      exact hm ▸ hf _ _ hfe
    | none => simp [mapFirstNode, hfe] at hm
  · intro l2 h
    simp [mapFirstList] at h
  · intro n rest ihn ihr l2 hl
    cases hmn : mapFirstNode f n with
    | some n2 =>
      simp only [mapFirstList, hmn, Option.some.injEq] at hl
      subst hl
      exact List.mem_append_left _ (ihn _ hmn)
    | none =>
      cases hmr : mapFirstList f rest with
      | some rest2 =>
        simp only [mapFirstList, hmn, hmr, Option.some.injEq] at hl
        subst hl
        exact List.mem_append_right _ (ihr _ hmr)
      | none => simp [mapFirstList, hmn, hmr] at hl

/-- When find succeeds, an opening token with the looked-up name is in the
trace. -/
theorem opener_mem_of_found (nm : String) :
    (∀ n, (findNode (isTag nm) n).isSome = true →
        ∃ attrs, Tok.opener nm attrs ∈ Node.trace n) ∧
    (∀ l, (findFirst (isTag nm) l).isSome = true →
        ∃ attrs, Tok.opener nm attrs ∈ traceList l) := by
  refine node_ind _ _ ?_ ?_ ?_ ?_
  · intro name attrs cs ih h
    by_cases hn : (name == nm) = true
    · have hname : name = nm := by simpa using hn
      subst hname
      exact ⟨attrs, by simp [Node.trace]⟩
    · simp only [findNode, isTag, hn, if_false] at h
      obtain ⟨a2, ha⟩ := ih h
      exact ⟨a2, List.mem_cons_of_mem _ (List.mem_append_left _ ha)⟩
  · intro s h
    simp [findNode, isTag] at h
  · intro h
    simp [findFirst] at h
  · intro n rest ihn ihr h
    cases hfn : findNode (isTag nm) n with
    | some r =>
      obtain ⟨a2, ha⟩ := ihn (by rw [hfn]; rfl)
      exact ⟨a2, List.mem_append_left _ ha⟩
    | none =>
      simp only [findFirst, hfn] at h
      obtain ⟨a2, ha⟩ := ihr h
      exact ⟨a2, List.mem_append_right _ ha⟩

/-- When an opening token with the looked-up name is in the trace, find
succeeds. -/
theorem found_of_opener_mem (nm : String) :
    (∀ n, ∀ attrs, Tok.opener nm attrs ∈ Node.trace n →
        (findNode (isTag nm) n).isSome = true) ∧
    (∀ l, ∀ attrs, Tok.opener nm attrs ∈ traceList l →
        (findFirst (isTag nm) l).isSome = true) := by
  refine node_ind _ _ ?_ ?_ ?_ ?_
  · intro name attrs0 cs ih a hmem
    by_cases hn : (name == nm) = true
    · simp [findNode, isTag, hn]
    · have htr : Node.trace (Node.elem name attrs0 cs)
          = Tok.opener name attrs0 :: (traceList cs ++ [Tok.closer]) := rfl
      rw [htr] at hmem
      rcases List.mem_cons.mp hmem with heq | hmem2
      · exfalso
        have : nm = name := by injection heq
        subst this
        simp at hn
      · rcases List.mem_append.mp hmem2 with h4 | h4
        · have := ih a h4
          simpa [findNode, isTag, hn] using this
        · simp at h4
  · intro s a hmem
    simp [Node.trace] at hmem
  · intro a hmem
    simp [traceList] at hmem
  · intro n rest ihn ihr a hmem
    have htr : traceList (n :: rest) = Node.trace n ++ traceList rest := rfl
    rw [htr] at hmem
    cases hfn : findNode (isTag nm) n with
    | some r => simp [findFirst, hfn]
    | none =>
      rcases List.mem_append.mp hmem with h4 | h4
      · have := ihn a h4
        rw [hfn] at this
        simp at this
      · simp only [findFirst, hfn]
        exact ihr a h4

/-- Finding a tag is monotone along trace sublists. -/
theorem findFirst_isSome_mono (nm : String) (d1 d2 : Doc)
    (h : (traceList d1).Sublist (traceList d2))
    (hs : (findFirst (isTag nm) d1).isSome = true) :
    (findFirst (isTag nm) d2).isSome = true := by
  obtain ⟨attrs, hmem⟩ := (opener_mem_of_found nm).2 d1 hs
  exact (found_of_opener_mem nm).2 d2 attrs (h.subset hmem)

theorem ensureHtml_has_html (doc : Doc) :
    (findFirst (isTag "html") (ensureHtml doc)).isSome = true := by
  unfold ensureHtml
  cases h : findFirst (isTag "html") doc with
  | some m => simp [h]
  | none => rfl

theorem ensureHead_trace (d : Doc) : (traceList d).Sublist (traceList (ensureHead d)) := by
  unfold ensureHead
  cases findFirst (isTag "head") d with
  | some m => exact List.Sublist.refl _
  | none =>
    refine trace_editFirstTag "html" _ ?_ _
    intro cs
    simp only [traceList]
    exact List.sublist_append_right _ _

theorem styleAppend_trace (d : Doc) :
    (traceList d).Sublist (traceList (editFirstTag "head" (fun cs => cs ++ [styleNode]) d)) := by
  refine trace_editFirstTag "head" _ ?_ _
  intro cs
  rw [traceList_append]
  exact List.sublist_append_left _ _

theorem ensureHead_has_head (doc : Doc)
    (hhtml : (findFirst (isTag "html") doc).isSome = true) :
    (findFirst (isTag "head") (ensureHead doc)).isSome = true := by
  unfold ensureHead
  cases h : findFirst (isTag "head") doc with
  | some m => simp [h]
  | none =>
    have hsome : (mapFirstList (editTagFun "html" fun cs => Node.elem "head" [] [] :: cs)
        doc).isSome = true := by
      rw [(mapFirst_editTag_isSome "html" _).2 doc]
      exact hhtml
    obtain ⟨doc2, hdoc2⟩ := Option.isSome_iff_exists.mp hsome
    have hmem : Tok.opener "head" [] ∈ traceList doc2 := by
      refine (mapFirst_mem _ _ ?_).2 doc doc2 hdoc2
      intro n m hf
      cases n with
      | text s => simp [editTagFun] at hf
      | elem name attrs cs =>
        by_cases hn : (name == "html") = true
        · simp only [editTagFun, hn, if_true, Option.some.injEq] at hf
          subst hf
          refine List.mem_cons_of_mem _ (List.mem_append_left _ ?_)
          exact List.mem_append_left _ (by simp [Node.trace, traceList])
        · simp [editTagFun, hn] at hf
    have : editFirstTag "html" (fun cs => Node.elem "head" [] [] :: cs) doc = doc2 := by
      unfold editFirstTag
      rw [hdoc2]
      rfl
    rw [this]
    exact (found_of_opener_mem "head").2 doc2 [] hmem

/-- Count shift of the whole style normalization for a token that occurs
neither in an empty html nor in an empty head element but exactly once in
the appended style block. -/
theorem style_count_step (doc : Doc) (t : Tok)
    (ht0 : (Node.trace (Node.elem "html" [] [])).count t = 0)
    (ht1 : (Node.trace (Node.elem "head" [] [])).count t = 0)
    (ht2 : (Node.trace styleNode).count t = 1) :
    (traceList (style_html_content doc)).count t = (traceList doc).count t + 1 := by
  have s1 : (traceList (ensureHtml doc)).count t = (traceList doc).count t := by
    unfold ensureHtml
    cases findFirst (isTag "html") doc with
    | some m => rfl
    | none =>
      simp only [traceList, List.count_append]
      omega
  have s2 : (traceList (ensureHead (ensureHtml doc))).count t
      = (traceList (ensureHtml doc)).count t := by
    unfold ensureHead
    cases h : findFirst (isTag "head") (ensureHtml doc) with
    | some m => rfl
    | none =>
      show (traceList (editFirstTag "html" (fun cs => Node.elem "head" [] [] :: cs)
          (ensureHtml doc))).count t = (traceList (ensureHtml doc)).count t
      cases hml : mapFirstList (editTagFun "html" fun cs => Node.elem "head" [] [] :: cs)
          (ensureHtml doc) with
      | none =>
        unfold editFirstTag
        rw [hml]
        rfl
      | some d2 =>
        have heq : editFirstTag "html" (fun cs => Node.elem "head" [] [] :: cs)
            (ensureHtml doc) = d2 := by
          unfold editFirstTag
          rw [hml]
          rfl
        rw [heq]
        have := count_editFirstTag "html" (fun cs => Node.elem "head" [] [] :: cs) t 0
          (by
            intro cs
            simp only [traceList, List.count_append]
            omega)
          (ensureHtml doc) d2 hml
        omega
  have hhead : (findFirst (isTag "head") (ensureHead (ensureHtml doc))).isSome = true :=
    ensureHead_has_head (ensureHtml doc) (ensureHtml_has_html doc)
  have hsome : (mapFirstList (editTagFun "head" fun cs => cs ++ [styleNode])
      (ensureHead (ensureHtml doc))).isSome = true := by
    rw [(mapFirst_editTag_isSome "head" _).2 _]
    exact hhead
  obtain ⟨d3, hd3⟩ := Option.isSome_iff_exists.mp hsome
  have s3 : (traceList (style_html_content doc)).count t
      = (traceList (ensureHead (ensureHtml doc))).count t + 1 := by
    have heq : style_html_content doc = d3 := by
      unfold style_html_content editFirstTag
      rw [hd3]
      rfl
    rw [heq]
    exact count_editFirstTag "head" (fun cs => cs ++ [styleNode]) t 1
      (by
        intro cs
        rw [traceList_append]
        simp only [traceList, List.count_append, List.append_nil]
        omega)
      (ensureHead (ensureHtml doc)) d3 hd3
  omega

/-- C2 as amended: style_html_content guarantees that the output contains
an html element and a head element (an empty html is synthesized as the
first document node only when no html element exists anywhere — a nested
html element suppresses the synthesis, so the output root need not be
html; an empty head is synthesized as the first child of the first html
element only when no head exists anywhere), appends exactly one new style
element whose text is the fixed CSS block — which sets a body font family
and line height, bold weight for all six heading levels, centered images
at 70 percent width, and justified paragraphs — and never removes or
alters pre-existing markup content (the input trace survives as a sublist
of the output trace, and exactly one style opening token and one CSS text
token are added). -/
theorem C2_style_normalizer (doc : Doc) :
    ((findFirst (isTag "html") (style_html_content doc)).isSome = true)
    ∧ ((findFirst (isTag "head") (style_html_content doc)).isSome = true)
    ∧ ((traceList doc).Sublist (traceList (style_html_content doc)))
    ∧ ((traceList (style_html_content doc)).count (Tok.str cssStyleText)
        = (traceList doc).count (Tok.str cssStyleText) + 1)
    ∧ ((traceList (style_html_content doc)).count (Tok.opener "style" [])
        = (traceList doc).count (Tok.opener "style" []) + 1)
    ∧ (containsSub cssStyleText "font-family" = true
       ∧ containsSub cssStyleText "line-height: 1.6" = true
       ∧ containsSub cssStyleText "h1, h2, h3, h4, h5, h6" = true
       ∧ containsSub cssStyleText "font-weight: 700" = true
       ∧ containsSub cssStyleText "width: 70%" = true
       ∧ containsSub cssStyleText "margin-left: auto" = true
       ∧ containsSub cssStyleText "margin-right: auto" = true
       ∧ containsSub cssStyleText "text-align: justify" = true) := by
  have hstep : (traceList (ensureHtml doc)).Sublist (traceList (style_html_content doc)) := by
    have ha := ensureHead_trace (ensureHtml doc)
    have hb := styleAppend_trace (ensureHead (ensureHtml doc))
    exact ha.trans hb
  refine ⟨?_, ?_, style_html_content_trace doc, ?_, ?_, ?_⟩
  · exact findFirst_isSome_mono "html" _ _ hstep (ensureHtml_has_html doc)
  · exact findFirst_isSome_mono "head" _ _ (styleAppend_trace _)
      (ensureHead_has_head (ensureHtml doc) (ensureHtml_has_html doc))
  · exact style_count_step doc _ (by decide) (by decide) (by decide)
  · exact style_count_step doc _ (by decide) (by decide) (by decide)
  · refine ⟨?_, ?_, ?_, ?_, ?_, ?_, ?_, ?_⟩ <;> decide

/-- Counterexample to C2 as stated: for an input whose only html element is
nested inside a div, the output has no html root — the root stays the div
(the head and the style block are synthesized inside the nested html
element), refuting that the result always has an html root. -/
theorem C2_counterexample :
    style_html_content nestedHtmlDoc
      = [Node.elem "div" [] [Node.elem "html" []
           [Node.elem "head" [] [styleNode], Node.elem "p" [] [Node.text "x"]]]]
    ∧ (style_html_content nestedHtmlDoc).all (fun n => !(isTag "html" n)) = true :=
  ⟨rfl, rfl⟩

theorem mapFirstList_length (f : Node → Option Node) :
    ∀ l l2, mapFirstList f l = some l2 → l2.length = l.length := by
  intro l
  induction l with
  | nil => intro l2 h; simp [mapFirstList] at h
  | cons n rest ih =>
    intro l2 h
    cases hmn : mapFirstNode f n with
    | some n2 =>
      simp only [mapFirstList, hmn, Option.some.injEq] at h
      subst h
      simp
    | none =>
      cases hmr : mapFirstList f rest with
      | some r2 =>
        simp only [mapFirstList, hmn, hmr, Option.some.injEq] at h
        subst h
        simp [ih r2 hmr]
      | none => simp [mapFirstList, hmn, hmr] at h

theorem editFirstTag_length (nm : String) (edit : List Node → List Node) (doc : Doc) :
    (editFirstTag nm edit doc).length = doc.length := by
  unfold editFirstTag
  cases hme : mapFirstList (editTagFun nm edit) doc with
  | none => rfl
  | some d2 => simpa using mapFirstList_length _ doc d2 hme

/-- Styling never yields an empty document: at worst the synthesized html
element is there. -/
theorem style_html_content_ne_nil (doc : Doc) : style_html_content doc ≠ [] := by
  have h1 : ensureHtml doc ≠ [] := by
    unfold ensureHtml
    cases h : findFirst (isTag "html") doc with
    | none => simp
    | some m =>
      intro hnil
      have hdoc : doc = [] := hnil
      rw [hdoc] at h
      simp [findFirst] at h
  have h2 : (ensureHead (ensureHtml doc)).length = (ensureHtml doc).length := by
    unfold ensureHead
    cases h : findFirst (isTag "head") (ensureHtml doc) with
    | some m => rfl
    | none => exact editFirstTag_length _ _ _
  have h3 : (style_html_content doc).length = (ensureHead (ensureHtml doc)).length :=
    editFirstTag_length _ _ _
  intro hnil
  have h4 : (style_html_content doc).length = 0 := by rw [hnil]; rfl
  have h5 : (ensureHtml doc).length ≠ 0 := by
    simpa [List.length_eq_zero] using h1
  omega

theorem processUrl_base (env : FetchEnv) (st : PipeState) (url : String) :
    (processUrl env st url).base
      = if pageOk env url = true then some (urljoin url "/") else st.base := by
  by_cases hu : (url == "") = true
  · have hu2 : url = "" := by simpa using hu
    have hok : pageOk env url = false := by simp [pageOk, hu2]
    simp [processUrl, hu, hok]
  · have hu3 : (url == "") = false := by simpa using hu
    cases hp : env.page url with
    | none =>
      have hok : pageOk env url = false := by simp [pageOk, hp]
      simp [processUrl, hu, hp, hok]
    | some d =>
      cases hd : d.isEmpty with
      | true =>
        have hok : pageOk env url = false := by simp [pageOk, hp, hd]
        simp [processUrl, hu, hp, hd, hok]
      | false =>
        have hu4 : ¬ url = "" := by simpa using hu
        have hok : pageOk env url = true := by simp [pageOk, hu4, hp, hd]
        simp [processUrl, hu, hp, hd, hok]

theorem processUrl_combined (env : FetchEnv) (st : PipeState) (url : String) :
    ∃ d, (processUrl env st url).combined = st.combined ++ d
      ∧ (pageOk env url = true → d ≠ []) := by
  by_cases hu : (url == "") = true
  · have hu2 : url = "" := by simpa using hu
    have hok : pageOk env url = false := by simp [pageOk, hu2]
    exact ⟨[], by simp [processUrl, hu], fun h => by rw [hok] at h; simp at h⟩
  · cases hp : env.page url with
    | none =>
      have hok : pageOk env url = false := by simp [pageOk, hp]
      exact ⟨[], by simp [processUrl, hu, hp], fun h => by rw [hok] at h; simp at h⟩
    | some d =>
      cases hd : d.isEmpty with
      | true =>
        have hok : pageOk env url = false := by simp [pageOk, hp, hd]
        exact ⟨[], by simp [processUrl, hu, hp, hd], fun h => by rw [hok] at h; simp at h⟩
      | false =>
        refine ⟨if (extract_main_content (include_css env.css (urljoin url "/") d).1).1.isEmpty
            then style_html_content (include_css env.css (urljoin url "/") d).1
            else style_html_content
              (extract_main_content (include_css env.css (urljoin url "/") d).1).1, ?_, ?_⟩
        · simp [processUrl, hu, hp, hd]
        · intro _
          split_ifs <;> exact style_html_content_ne_nil _

/-- Loop invariant of main over the URLs: the final base_url is the root of
the last successfully fetched URL, and the combined content is nonempty as
soon as it was nonempty before or any page succeeded. -/
theorem runPipeline_aux (env : FetchEnv) :
    ∀ (urls : List String) (st0 : PipeState),
      ((urls.foldl (processUrl env) st0).base
        = (match (urls.filter (fun v => pageOk env v)).getLast? with
           | some u => some (urljoin u "/")
           | none => st0.base))
      ∧ (st0.combined ≠ [] → (urls.foldl (processUrl env) st0).combined ≠ [])
      ∧ ((urls.filter (fun v => pageOk env v)) ≠ [] →
          (urls.foldl (processUrl env) st0).combined ≠ []) := by
  intro urls
  induction urls with
  | nil =>
    intro st0
    exact ⟨rfl, fun h => h, fun h => absurd rfl h⟩
  | cons u rest ih =>
    intro st0
    have hfold : (u :: rest).foldl (processUrl env) st0
        = rest.foldl (processUrl env) (processUrl env st0 u) := rfl
    obtain ⟨d, hd, hdne⟩ := processUrl_combined env st0 u
    by_cases hok : pageOk env u = true
    · have hfilter : (u :: rest).filter (fun v => pageOk env v)
          = u :: rest.filter (fun v => pageOk env v) := by
        simp [List.filter_cons, hok]
      have hbase1 : (processUrl env st0 u).base = some (urljoin u "/") := by
        rw [processUrl_base, if_pos hok]
      refine ⟨?_, ?_, ?_⟩
      · rw [hfold, hfilter, (ih (processUrl env st0 u)).1, hbase1]
        cases hL : rest.filter (fun v => pageOk env v) with
        | nil => simp
        | cons v vs =>
          have hLs : (v :: vs).getLast?.isSome = true := by
            rw [List.getLast?_isSome]
            simp
          obtain ⟨w, hw⟩ := Option.isSome_iff_exists.mp hLs
          rw [List.getLast?_cons_cons, hw]
      · intro hne
        rw [hfold]
        refine (ih _).2.1 ?_
        rw [hd]
        intro hcontra
        exact hne (List.append_eq_nil.mp hcontra).1
      · intro _
        rw [hfold]
        refine (ih _).2.1 ?_
        rw [hd]
        intro hcontra
        exact hdne hok (List.append_eq_nil.mp hcontra).2
    · have hfilter : (u :: rest).filter (fun v => pageOk env v)
          = rest.filter (fun v => pageOk env v) := by
        simp [List.filter_cons, hok]
      refine ⟨?_, ?_, ?_⟩
      · rw [hfold, hfilter, (ih (processUrl env st0 u)).1, processUrl_base, if_neg hok]
      · intro hne
        rw [hfold]
        refine (ih _).2.1 ?_
        rw [hd]
        intro hcontra
        exact hne (List.append_eq_nil.mp hcontra).1
      · intro hne
        rw [hfold]
        exact (ih _).2.2 (hfilter ▸ hne)

/-- C5: on the DOCX path the whole combined content — images of earlier
pages included — is translated against the base URL of the last
successfully processed page: the final base_url is the root of the last
URL passing the fetch guards, the conversion handed to the DOCX writer is
convert_to_docx at exactly that base, and an image element with a relative
src is fetched at that base joined with its src, wherever the element came
from. -/
theorem C5_last_page_base (env : FetchEnv) (urls : List String) (u : String)
    (hlast : (urls.filter (fun v => pageOk env v)).getLast? = some u) :
    ((runPipeline env urls).base = some (urljoin u "/"))
    ∧ ((mainDocx env urls).1
        = some ((convert_to_docx env.img (urljoin u "/")
            ((runPipeline env urls).combined)).1))
    ∧ (∀ attrs cs src, attrVal attrs "src" = some src → src ≠ "" →
        (ownOutput env.img (urljoin u "/") (Node.elem "img" attrs cs)).1
          = ((env.img (urljoin (urljoin u "/") src)).map
              (fun bytes => Block.image bytes 4)).toList) := by
  have haux := runPipeline_aux env urls ⟨[], none, []⟩
  have hbase : (runPipeline env urls).base = some (urljoin u "/") := by
    have hb := haux.1
    rw [hlast] at hb
    exact hb
  have hfilter_ne : urls.filter (fun v => pageOk env v) ≠ [] := by
    intro hc
    rw [hc] at hlast
    simp at hlast
  have hcomb : (runPipeline env urls).combined ≠ [] := haux.2.2 hfilter_ne
  refine ⟨hbase, ?_, ?_⟩
  · have hne : (runPipeline env urls).combined.isEmpty = false := by
      simpa [List.isEmpty_iff] using hcomb
    simp only [mainDocx, hne, Bool.false_eq_true, if_false, hbase, Option.getD_some]
  · intro attrs cs src hsrc hne
    cases hfb : env.img (urljoin (urljoin u "/") src) with
    | none => simp [ownOutput, hsrc, hne, hfb]
    | some bytes => simp [ownOutput, hsrc, hne, hfb]

/-- Witness for C5: two pages both fetch; the image of the first page, with
relative src a.png, is resolved against the root of the second page and is
found there, landing in the output. -/
theorem C5_witness :
    ((runPipeline env2 urls2).base = some "http://two.example/")
    ∧ ((mainDocx env2 urls2).1
        = some ((convert_to_docx env2.img "http://two.example/"
            ((runPipeline env2 urls2).combined)).1))
    ∧ ((mainDocx env2 urls2).1
        = some [Block.para cssStyleText, Block.image [7] 4,
                Block.para cssStyleText, Block.para "hi", Block.para "hi"]) := by
  have h := C5_last_page_base env2 urls2 "http://two.example/q" rfl
  exact ⟨h.1, h.2.1, rfl⟩

end WebToPdf
